import Mathlib

/-!
Verification of switchmap-ng core behaviors: configuration overlay
resolution (maintenance/install.py), the topology poller and its cache
writer (bin/topology.py), and the search route accumulator
(switchmap/www/routes/pages/search.py).

Source code is embedded shallowly: pure data manipulation becomes Lean
functions over lists; filesystem effects of the cache writer become an
explicit step sequence over a small filesystem state; the process pool
becomes a labelled transition system.
-/

namespace Switchmap

/-! ## Configuration resolution (maintenance/install.py, `_Config.__init__`)

`_Config.__init__` seeds `self.config_dict` by YAML-parsing a literal
template string (install.py lines 271-309) and then overlays values found
in the configuration directories.  The template's `hostnames` entry is
rendered with `'{}'.format(None)` twice, and PyYAML parses the plain
scalar `None` as the *string* "None" (PyYAML's null resolver only accepts
`~`, `null`, `Null`, `NULL` and the empty scalar), so the seeded hostname
list is two copies of the string "None". -/

/-- An SNMP credential group as configured under `snmp_groups:`. -/
structure SnmpGroup where
  group_name : String
  snmp_version : Nat
  snmp_secname : Option String
  snmp_community : Option String
  snmp_port : Nat
  snmp_authprotocol : Option String
  snmp_authpassword : Option String
  snmp_privprotocol : Option String
  snmp_privpassword : Option String
  enabled : Bool
deriving DecidableEq, Repr

/-- Seed group `SAMPLE_SNMPv2` from the install.py template (lines 286-295). -/
def sampleV2 : SnmpGroup :=
  { group_name := "SAMPLE_SNMPv2"
    snmp_version := 2
    snmp_secname := none
    snmp_community := some "SAMPLE"
    snmp_port := 161
    snmp_authprotocol := none
    snmp_authpassword := none
    snmp_privprotocol := none
    snmp_privpassword := none
    enabled := false }

/-- Seed group `SAMPLE_SNMPv3` from the install.py template (lines 297-306). -/
def sampleV3 : SnmpGroup :=
  { group_name := "SAMPLE_SNMPv3"
    snmp_version := 3
    snmp_secname := some "SAMPLE"
    snmp_community := none
    snmp_port := 161
    snmp_authprotocol := some "SAMPLE"
    snmp_authpassword := some "SAMPLE"
    snmp_privprotocol := some "SAMPLE"
    snmp_privpassword := some "SAMPLE"
    enabled := false }

/-- The seeded `snmp_groups` list of the template. -/
def seedGroups : List SnmpGroup := [sampleV2, sampleV3]

/-- The seeded `hostnames` list of the template: `'{}'.format(None)` twice,
which PyYAML reads back as the string "None" twice. -/
def seedHostnames : List String := ["None", "None"]

/-- install.py lines 347-350: append a found hostname to the existing list
only when it is not already present. -/
def hostnameMergeOne (acc : List String) (h : String) : List String :=
  if h ∈ acc then acc else acc ++ [h]

/-- install.py lines 341-350: merge a fragment's `hostnames` list into the
accumulated list, one hostname at a time. -/
def mergeHostnames (acc : List String) (found : List String) : List String :=
  found.foldl hostnameMergeOne acc

/-- install.py lines 563-581, `_snmp_group_found`: scan `listing` setting
`found = True` whenever an entry shares `item`'s `group_name`. -/
def snmpGroupFound (item : SnmpGroup) (listing : List SnmpGroup) : Bool :=
  listing.foldl (fun found next =>
    if next.group_name = item.group_name then true else found) false

/-- install.py lines 359-362: append a fragment group only when
`_snmp_group_found` reports no accumulated group with the same name. -/
def groupMergeOne (acc : List SnmpGroup) (item : SnmpGroup) : List SnmpGroup :=
  if snmpGroupFound item acc then acc else acc ++ [item]

/-- install.py lines 358-362: merge one fragment's `snmp_groups` list into
the accumulated list. -/
def mergeGroups (acc : List SnmpGroup) (items : List SnmpGroup) : List SnmpGroup :=
  items.foldl groupMergeOne acc

/-- Resolution of the `hostnames` field across an ordered list of
configuration fragments.  The per-hostname merge rule is install.py lines
341-350; the iteration over fragments in their defined order models the
spec's ConfigResolver contract (the fragment reader
`general.read_yaml_files` is not part of the sources). -/
def resolveHostnames (frags : List (List String)) : List String :=
  frags.foldl mergeHostnames seedHostnames

/-- Resolution of the `snmp_groups` field across an ordered list of
configuration fragments, by the install.py merge rule (lines 356-362),
iterated over fragments in their defined order. -/
def resolveGroups (frags : List (List SnmpGroup)) : List SnmpGroup :=
  frags.foldl mergeGroups seedGroups

/-! ### Structural lemmas about the merge folds -/

/-- The part of `mergeHostnames acc found` appended after `acc`: the
previously-unseen hostnames of `found` in first-appearance order. -/
def dedupNew (acc : List String) : List String → List String
  | [] => []
  | h :: hs => if h ∈ acc then dedupNew acc hs else h :: dedupNew (acc ++ [h]) hs

theorem mergeHostnames_eq_append (found : List String) :
    ∀ acc, mergeHostnames acc found = acc ++ dedupNew acc found := by
  induction found with
  | nil => intro acc; simp [mergeHostnames, dedupNew]
  | cons h hs ih =>
    intro acc
    by_cases hmem : h ∈ acc
    · simpa [mergeHostnames, dedupNew, hostnameMergeOne, hmem,
        List.foldl_cons] using ih acc
    · have := ih (acc ++ [h])
      simp only [mergeHostnames, List.foldl_cons, hostnameMergeOne,
        if_neg hmem, dedupNew] at this ⊢
      rw [this, List.append_assoc]
      simp

theorem dedupNew_not_mem_acc (found : List String) :
    ∀ acc h, h ∈ dedupNew acc found → h ∉ acc := by
  induction found with
  | nil => intro acc h hmem; simp [dedupNew] at hmem
  | cons x xs ih =>
    intro acc h hmem
    by_cases hx : x ∈ acc
    · exact ih acc h (by simpa [dedupNew, hx] using hmem)
    · simp only [dedupNew, if_neg hx] at hmem
      rcases List.mem_cons.mp hmem with rfl | htail
      · exact hx
      · have := ih (acc ++ [x]) h htail
        intro hacc
        exact this (List.mem_append_left _ hacc)

theorem dedupNew_nodup (found : List String) :
    ∀ acc, (dedupNew acc found).Nodup := by
  induction found with
  | nil => intro acc; simp [dedupNew]
  | cons x xs ih =>
    intro acc
    by_cases hx : x ∈ acc
    · simpa [dedupNew, hx] using ih acc
    · simp only [dedupNew, if_neg hx, List.nodup_cons]
      refine ⟨fun hmem => ?_, ih (acc ++ [x])⟩
      exact dedupNew_not_mem_acc xs (acc ++ [x]) x hmem
        (List.mem_append_right _ (List.mem_singleton.mpr rfl))

theorem dedupNew_sublist (found : List String) :
    ∀ acc, List.Sublist (dedupNew acc found) found := by
  induction found with
  | nil => intro acc; simp [dedupNew]
  | cons x xs ih =>
    intro acc
    by_cases hx : x ∈ acc
    · simpa [dedupNew, hx] using List.Sublist.cons x (ih acc)
    · simpa [dedupNew, hx] using List.Sublist.cons₂ x (ih (acc ++ [x]))

theorem dedupNew_mem_iff (found : List String) :
    ∀ acc h, h ∈ dedupNew acc found ↔ h ∈ found ∧ h ∉ acc := by
  induction found with
  | nil => intro acc h; simp [dedupNew]
  | cons x xs ih =>
    intro acc h
    by_cases hx : x ∈ acc
    · simp only [dedupNew, if_pos hx, ih acc h, List.mem_cons]
      constructor
      · rintro ⟨hmem, hnot⟩; exact ⟨Or.inr hmem, hnot⟩
      · rintro ⟨hor, hnot⟩
        rcases hor with rfl | hmem
        · exact absurd hx hnot
        · exact ⟨hmem, hnot⟩
    · simp only [dedupNew, if_neg hx, List.mem_cons, ih (acc ++ [x]) h,
        List.mem_append, List.mem_singleton]
      constructor
      · rintro (rfl | ⟨hmem, hnot⟩)
        · exact ⟨Or.inl rfl, hx⟩
        · exact ⟨Or.inr hmem, fun hacc => hnot (Or.inl hacc)⟩
      · rintro ⟨rfl | hmem, hnot⟩
        · exact Or.inl rfl
        · by_cases hxh : h = x
          · exact Or.inl hxh
          · exact Or.inr ⟨hmem, by simp [hnot, hxh]⟩

theorem dedupNew_count (found : List String) :
    ∀ acc h, (dedupNew acc found).count h = if h ∈ found ∧ h ∉ acc then 1 else 0 := by
  intro acc h
  by_cases hmem : h ∈ dedupNew acc found
  · rw [if_pos ((dedupNew_mem_iff found acc h).mp hmem)]
    exact List.count_eq_one_of_mem (dedupNew_nodup found acc) hmem
  · rw [if_neg (fun hc => hmem ((dedupNew_mem_iff found acc h).mpr hc))]
    exact List.count_eq_zero_of_not_mem hmem

theorem snmpGroupFound_foldl (item : SnmpGroup) (listing : List SnmpGroup) :
    ∀ b : Bool,
      listing.foldl (fun found next =>
        if next.group_name = item.group_name then true else found) b =
      (b || listing.any (fun g => g.group_name == item.group_name)) := by
  induction listing with
  | nil => intro b; simp
  | cons x xs ih =>
    intro b
    rw [List.foldl_cons, List.any_cons, ih]
    by_cases hx : x.group_name = item.group_name
    · simp [hx]
    · have hbeq : (x.group_name == item.group_name) = false := by simpa using hx
      simp [hx, hbeq]

theorem snmpGroupFound_iff_mem_names (item : SnmpGroup) (listing : List SnmpGroup) :
    snmpGroupFound item listing = true ↔
      item.group_name ∈ listing.map SnmpGroup.group_name := by
  rw [snmpGroupFound, snmpGroupFound_foldl]
  simp only [Bool.false_or, List.any_eq_true, beq_iff_eq, List.mem_map]

/-- The part of `mergeGroups acc items` appended after `acc`: the fragment
groups whose `group_name` was previously unseen, in first-appearance order. -/
def mergeNewGroups (acc : List SnmpGroup) : List SnmpGroup → List SnmpGroup
  | [] => []
  | g :: gs =>
    if snmpGroupFound g acc then mergeNewGroups acc gs
    else g :: mergeNewGroups (acc ++ [g]) gs

theorem mergeGroups_eq_append (items : List SnmpGroup) :
    ∀ acc, mergeGroups acc items = acc ++ mergeNewGroups acc items := by
  induction items with
  | nil => intro acc; simp [mergeGroups, mergeNewGroups]
  | cons g gs ih =>
    intro acc
    by_cases hfound : snmpGroupFound g acc
    · simpa [mergeGroups, mergeNewGroups, groupMergeOne, hfound,
        List.foldl_cons] using ih acc
    · have := ih (acc ++ [g])
      simp only [mergeGroups, List.foldl_cons, groupMergeOne,
        if_neg hfound, mergeNewGroups] at this ⊢
      rw [this, List.append_assoc]
      simp

theorem mergeNewGroups_name_not_in_acc (items : List SnmpGroup) :
    ∀ acc g, g ∈ mergeNewGroups acc items →
      g.group_name ∉ acc.map SnmpGroup.group_name := by
  induction items with
  | nil => intro acc g hmem; simp [mergeNewGroups] at hmem
  | cons x xs ih =>
    intro acc g hmem
    by_cases hx : snmpGroupFound x acc
    · exact ih acc g (by simpa [mergeNewGroups, hx] using hmem)
    · simp only [mergeNewGroups, if_neg hx] at hmem
      rcases List.mem_cons.mp hmem with rfl | htail
      · exact fun hacc => hx ((snmpGroupFound_iff_mem_names g acc).mpr hacc)
      · have := ih (acc ++ [x]) g htail
        intro hacc
        exact this (by simpa using Or.inl hacc)

theorem mergeGroups_names_nodup (items : List SnmpGroup) :
    ∀ acc, (acc.map SnmpGroup.group_name).Nodup →
      ((mergeGroups acc items).map SnmpGroup.group_name).Nodup := by
  induction items with
  | nil => intro acc hacc; simpa [mergeGroups] using hacc
  | cons x xs ih =>
    intro acc hacc
    by_cases hx : snmpGroupFound x acc
    · simpa [mergeGroups, List.foldl_cons, groupMergeOne, hx] using ih acc hacc
    · have hnew : (((acc ++ [x]).map SnmpGroup.group_name)).Nodup := by
        have hnot : x.group_name ∉ acc.map SnmpGroup.group_name := fun hc =>
          hx ((snmpGroupFound_iff_mem_names x acc).mpr hc)
        simp only [List.map_append, List.map_singleton]
        exact List.Nodup.append hacc (List.nodup_singleton _)
          (by simpa [List.disjoint_singleton] using hnot)
      simpa [mergeGroups, List.foldl_cons, groupMergeOne, hx]
        using ih (acc ++ [x]) hnew

theorem mergeGroups_mem_iff (items : List SnmpGroup) :
    ∀ acc g, g ∈ mergeGroups acc items ↔
      g ∈ acc ∨ (g.group_name ∉ acc.map SnmpGroup.group_name ∧
        items.find? (fun x => x.group_name == g.group_name) = some g) := by
  induction items with
  | nil => intro acc g; simp [mergeGroups]
  | cons x xs ih =>
    intro acc g
    have hstep : mergeGroups acc (x :: xs) = mergeGroups (groupMergeOne acc x) xs := by
      simp [mergeGroups, List.foldl_cons]
    by_cases hfound : snmpGroupFound x acc
    · rw [hstep]
      simp only [groupMergeOne, if_pos hfound]
      rw [ih acc g]
      by_cases hx : x.group_name = g.group_name
      · have hgacc : g.group_name ∈ acc.map SnmpGroup.group_name := by
          rw [← hx]
          exact (snmpGroupFound_iff_mem_names x acc).mp hfound
        constructor
        · rintro (hmem | ⟨hnot, _⟩)
          · exact Or.inl hmem
          · exact absurd hgacc hnot
        · rintro (hmem | ⟨hnot, _⟩)
          · exact Or.inl hmem
          · exact absurd hgacc hnot
      · rw [List.find?_cons_of_neg _ (by simpa using hx)]
    · rw [hstep]
      simp only [groupMergeOne, if_neg hfound]
      rw [ih (acc ++ [x]) g]
      have hxnot : x.group_name ∉ acc.map SnmpGroup.group_name := fun hc =>
        hfound ((snmpGroupFound_iff_mem_names x acc).mpr hc)
      by_cases hgx : g = x
      · subst hgx
        constructor
        · intro _
          exact Or.inr ⟨hxnot, by rw [List.find?_cons_of_pos _ (by simp)]⟩
        · intro _
          exact Or.inl (List.mem_append_right _ (List.mem_singleton.mpr rfl))
      · have hmemiff : g ∈ acc ++ [x] ↔ g ∈ acc := by simp [hgx]
        by_cases hnx : x.group_name = g.group_name
        · constructor
          · rintro (hmem | ⟨hnot, _⟩)
            · exact Or.inl (hmemiff.mp hmem)
            · exact absurd (by simp [← hnx]) hnot
          · rintro (hmem | ⟨hnot, hfind⟩)
            · exact Or.inl (hmemiff.mpr hmem)
            · rw [List.find?_cons_of_pos _ (by simpa using hnx)] at hfind
              injection hfind with hfind
              exact absurd hfind.symm hgx
        · rw [List.find?_cons_of_neg _ (by simpa using hnx)]
          constructor
          · rintro (hmem | ⟨hnot, hf⟩)
            · exact Or.inl (hmemiff.mp hmem)
            · refine Or.inr ⟨fun hc => hnot ?_, hf⟩
              simp [hc]
          · rintro (hmem | ⟨hnot, hf⟩)
            · exact Or.inl (hmemiff.mpr hmem)
            · refine Or.inr ⟨fun hc => ?_, hf⟩
              rcases (by simpa using hc : g.group_name ∈
                  acc.map SnmpGroup.group_name ∨ g.group_name = x.group_name)
                with h1 | h2
              · exact hnot h1
              · exact hnx h2.symm

/-- Folding a per-fragment merge over a fragment list is the same as folding
the per-item merge over the concatenation of the fragments. -/
theorem foldl_over_fragments {α β : Type} (f : α → β → α) (L : List (List β)) :
    ∀ a : α, L.foldl (fun acc l => l.foldl f acc) a = (L.flatten).foldl f a := by
  induction L with
  | nil => intro a; simp
  | cons l ls ih => intro a; simp [List.foldl_append, ih]

theorem resolveHostnames_eq_flat (frags : List (List String)) :
    resolveHostnames frags = mergeHostnames seedHostnames frags.flatten :=
  foldl_over_fragments hostnameMergeOne frags seedHostnames

theorem resolveGroups_eq_flat (frags : List (List SnmpGroup)) :
    resolveGroups frags = mergeGroups seedGroups frags.flatten :=
  foldl_over_fragments groupMergeOne frags seedGroups

/-! ### Claims about configuration resolution -/

/-- Claim C2, counterexample.  The claim says fragments `[a,b]` then `[b,c]`
resolve to `[a,b,c]` with each hostname exactly once.  The code seeds the
hostname list with two placeholder entries (the string "None" twice), so the
resolved list is `["None","None","a","b","c"]`, which differs from
`["a","b","c"]` and is not duplicate-free. -/
theorem resolveHostnames_claim_counterexample :
    resolveHostnames [["a", "b"], ["b", "c"]] = ["None", "None", "a", "b", "c"] ∧
    resolveHostnames [["a", "b"], ["b", "c"]] ≠ ["a", "b", "c"] ∧
    ¬ (resolveHostnames [["a", "b"], ["b", "c"]]).Nodup := by
  refine ⟨by decide, by decide, by decide⟩

/-- Claim C2, amended: the resolved `hostnames` list is the two seed
placeholder entries followed by the fragment hostnames that are not
placeholders, each exactly once, in first-appearance order across the
fragments; appending a hostname already present leaves the list unchanged. -/
theorem resolveHostnames_amended (frags : List (List String)) :
    resolveHostnames frags =
      seedHostnames ++ dedupNew seedHostnames frags.flatten ∧
    (dedupNew seedHostnames frags.flatten).Nodup ∧
    List.Sublist (dedupNew seedHostnames frags.flatten) frags.flatten ∧
    (∀ h, (resolveHostnames frags).count h =
      seedHostnames.count h +
        (if h ∈ frags.flatten ∧ h ∉ seedHostnames then 1 else 0)) ∧
    (∀ h, h ∈ resolveHostnames frags →
      mergeHostnames (resolveHostnames frags) [h] = resolveHostnames frags) := by
  have heq : resolveHostnames frags =
      seedHostnames ++ dedupNew seedHostnames frags.flatten := by
    rw [resolveHostnames_eq_flat, mergeHostnames_eq_append]
  refine ⟨heq, dedupNew_nodup _ _, dedupNew_sublist _ _, ?_, ?_⟩
  · intro h
    rw [heq, List.count_append, dedupNew_count]
  · intro h hmem
    simp [mergeHostnames, hostnameMergeOne, hmem]

/-- Witness for the amended claim C2 at the fragments of the spec's example. -/
theorem resolveHostnames_amended_witness :
    resolveHostnames [["a", "b"], ["b", "c"]] =
      seedHostnames ++ dedupNew seedHostnames [["a", "b"], ["b", "c"]].flatten :=
  (resolveHostnames_amended [["a", "b"], ["b", "c"]]).1

/-- A fragment credential group that reuses the seed name `SAMPLE_SNMPv2`
but is enabled and carries a real community string. -/
def fragSampleV2 : SnmpGroup :=
  { sampleV2 with enabled := true, snmp_community := some "public" }

/-- Claim C3, counterexample.  The claim says a fragment group is appended
iff no earlier-processed group shares its `group_name`, so that the first
occurrence across all fragments wins.  A fragment group named
`SAMPLE_SNMPv2` is the first (and only) occurrence of that name across the
fragments, yet it is dropped, because the merge accumulator is seeded with
a disabled group of the same name before any fragment is processed. -/
theorem resolveGroups_claim_counterexample :
    resolveGroups [[fragSampleV2]] = seedGroups ∧
    fragSampleV2 ∉ resolveGroups [[fragSampleV2]] := by
  refine ⟨by decide, by decide⟩

/-- Claim C3, amended: the resolved `snmp_groups` list is unique by
`group_name`, and a group belongs to it iff it is one of the two seed
groups or a fragment group whose name is not a seed name and which is the
first fragment group bearing that name; later duplicates are dropped
without error. -/
theorem resolveGroups_amended (frags : List (List SnmpGroup)) :
    resolveGroups frags =
      seedGroups ++ mergeNewGroups seedGroups frags.flatten ∧
    ((resolveGroups frags).map SnmpGroup.group_name).Nodup ∧
    (∀ g, g ∈ resolveGroups frags ↔ g ∈ seedGroups ∨
      (g.group_name ∉ seedGroups.map SnmpGroup.group_name ∧
        frags.flatten.find? (fun x => x.group_name == g.group_name) = some g)) := by
  have heq : resolveGroups frags =
      seedGroups ++ mergeNewGroups seedGroups frags.flatten := by
    rw [resolveGroups_eq_flat, mergeGroups_eq_append]
  refine ⟨heq, ?_, ?_⟩
  · rw [resolveGroups_eq_flat]
    exact mergeGroups_names_nodup _ seedGroups (by decide)
  · intro g
    rw [resolveGroups_eq_flat]
    exact mergeGroups_mem_iff frags.flatten seedGroups g

/-- Witness for the amended claim C3: the seed group survives and the
name-clashing fragment group is recognized as excluded. -/
theorem resolveGroups_amended_witness :
    sampleV2 ∈ resolveGroups [[fragSampleV2]] ∧
    ((resolveGroups [[fragSampleV2]]).map SnmpGroup.group_name).Nodup := by
  refine ⟨?_, (resolveGroups_amended [[fragSampleV2]]).2.1⟩
  exact ((resolveGroups_amended [[fragSampleV2]]).2.2 sampleV2).mpr
    (Or.inl (by decide))

/-- Claim C10: configuration resolution starts from the built-in seed
template, not from an empty configuration.  The resolved hostname list
always begins with the two placeholder entries; the resolved groups always
contain the two disabled seed groups `SAMPLE_SNMPv2` and `SAMPLE_SNMPv3`;
and under first-occurrence-wins merging, any fragment group bearing either
seed name is never among the appended (fragment-sourced) groups. -/
theorem resolver_seed_template (hfrags : List (List String))
    (gfrags : List (List SnmpGroup)) :
    (resolveHostnames hfrags).take 2 = ["None", "None"] ∧
    sampleV2 ∈ resolveGroups gfrags ∧
    sampleV3 ∈ resolveGroups gfrags ∧
    sampleV2.enabled = false ∧
    sampleV3.enabled = false ∧
    (∀ g, g ∈ gfrags.flatten →
      (g.group_name = "SAMPLE_SNMPv2" ∨ g.group_name = "SAMPLE_SNMPv3") →
      g ∉ mergeNewGroups seedGroups gfrags.flatten) := by
  have hh : resolveHostnames hfrags =
      seedHostnames ++ dedupNew seedHostnames hfrags.flatten := by
    rw [resolveHostnames_eq_flat, mergeHostnames_eq_append]
  have hg : resolveGroups gfrags =
      seedGroups ++ mergeNewGroups seedGroups gfrags.flatten := by
    rw [resolveGroups_eq_flat, mergeGroups_eq_append]
  refine ⟨?_, ?_, ?_, rfl, rfl, ?_⟩
  · rw [hh]
    have : (2 : Nat) = seedHostnames.length := rfl
    rw [this, List.take_left]
    rfl
  · rw [hg]
    exact List.mem_append_left _ (by simp [seedGroups])
  · rw [hg]
    exact List.mem_append_left _ (by simp [seedGroups])
  · intro g _ hname hmem
    have hnot := mergeNewGroups_name_not_in_acc gfrags.flatten seedGroups g hmem
    rcases hname with h2 | h3
    · exact hnot (by simp [seedGroups, sampleV2, sampleV3, h2])
    · exact hnot (by simp [seedGroups, sampleV2, sampleV3, h3])

/-- Witness for claim C10 at concrete fragments. -/
theorem resolver_seed_template_witness :
    (resolveHostnames [["switch1"]]).take 2 = ["None", "None"] ∧
    fragSampleV2 ∉ mergeNewGroups seedGroups [[fragSampleV2]].flatten := by
  refine ⟨(resolver_seed_template [["switch1"]] [[fragSampleV2]]).1, ?_⟩
  exact (resolver_seed_template [["switch1"]] [[fragSampleV2]]).2.2.2.2.2
    fragSampleV2 (by simp) (Or.inl rfl)

/-! ## The per-host cache writer (bin/topology.py, `Poller._create_yaml`)

`_create_yaml` makes a private scratch directory with `tempfile.mkdtemp`,
writes the serialized snapshot into a file there, then `os.rename`s that
file onto the host's cache slot and `os.rmdir`s the scratch directory.
The filesystem is modelled by the contents of the scratch file and of the
host's cache slot; the write of the serialized text is split into an
arbitrary chunk list to model partially completed writes, and `os.rename`
is the single atomic step that changes the cache slot. -/

/-- Filesystem state relevant to one host's cache write: whether the
scratch directory exists, the scratch file content, and the cache slot
content (`none` = file absent). -/
structure CacheFS where
  scratchDir : Bool
  scratch : Option String
  slot : Option String
deriving DecidableEq, Repr

/-- One atomic filesystem action of `_create_yaml`. -/
inductive WriteStep where
  | mkScratch : WriteStep
  | writeChunk : String → WriteStep
  | renameTmp : WriteStep
  | rmScratchDir : WriteStep
deriving DecidableEq, Repr

/-- Effect of one action: `mkScratch` is `tempfile.mkdtemp` plus opening
the scratch file; `writeChunk` appends to the scratch file; `renameTmp` is
`os.rename(temp_file, perm_file)`, atomically replacing the slot content;
`rmScratchDir` is `os.rmdir(temp_dir)`. -/
def applyStep (fs : CacheFS) : WriteStep → CacheFS
  | .mkScratch => { fs with scratchDir := true, scratch := some "" }
  | .writeChunk s => { fs with scratch := some ((fs.scratch.getD "") ++ s) }
  | .renameTmp => { scratchDir := fs.scratchDir, scratch := none, slot := fs.scratch }
  | .rmScratchDir => { fs with scratchDir := false }

/-- Concatenation of the written chunks: the full serialized snapshot. -/
def joinStr : List String → String
  | [] => ""
  | c :: cs => c ++ joinStr cs

/-- The action sequence of `Poller._create_yaml` (topology.py lines
160-197), with the scratch-file write split into `chunks`. -/
def createYamlSteps (chunks : List String) : List WriteStep :=
  WriteStep.mkScratch ::
    (chunks.map WriteStep.writeChunk ++ [WriteStep.renameTmp, WriteStep.rmScratchDir])

/-- Run a list of actions against a filesystem state. -/
def runSteps (fs : CacheFS) (steps : List WriteStep) : CacheFS :=
  steps.foldl applyStep fs

theorem runSteps_writeChunks (chunks : List String) :
    ∀ (d : Bool) (t : Option String) (s : String),
      runSteps ⟨d, some s, t⟩ (chunks.map WriteStep.writeChunk) =
        ⟨d, some (s ++ joinStr chunks), t⟩ := by
  induction chunks with
  | nil => intro d t s; simp [runSteps, joinStr]
  | cons c cs ih =>
    intro d t s
    have hstep : applyStep ⟨d, some s, t⟩ (WriteStep.writeChunk c) =
        ⟨d, some (s ++ c), t⟩ := by
      simp [applyStep]
    calc runSteps ⟨d, some s, t⟩ ((c :: cs).map WriteStep.writeChunk)
        = runSteps ⟨d, some (s ++ c), t⟩ (cs.map WriteStep.writeChunk) := by
          simp [runSteps, hstep]
      _ = ⟨d, some ((s ++ c) ++ joinStr cs), t⟩ := ih d t (s ++ c)
      _ = ⟨d, some (s ++ joinStr (c :: cs)), t⟩ := by
          rw [String.append_assoc]; rfl

theorem runSteps_append (fs : CacheFS) (l₁ l₂ : List WriteStep) :
    runSteps fs (l₁ ++ l₂) = runSteps (runSteps fs l₁) l₂ := by
  simp [runSteps, List.foldl_append]

/-- Claim C1: `_create_yaml` serializes to a private scratch location and
renames it onto the cache slot in one atomic step, removing the scratch
artifact afterwards.  At every instant — after any number `n` of completed
actions, i.e. under interruption at any point before or after the rename —
the cache slot holds either the prior content unchanged or the complete
new serialization, never a partial one; and the completed write leaves the
new serialization in the slot with no scratch file or directory behind. -/
theorem cacheWrite_atomic (fs0 : CacheFS) (chunks : List String) :
    (∀ n : Nat,
      (runSteps fs0 ((createYamlSteps chunks).take n)).slot = fs0.slot ∨
      (runSteps fs0 ((createYamlSteps chunks).take n)).slot = some (joinStr chunks)) ∧
    runSteps fs0 (createYamlSteps chunks) =
      { scratchDir := false, scratch := none, slot := some (joinStr chunks) } := by
  have hmk : applyStep fs0 WriteStep.mkScratch = ⟨true, some "", fs0.slot⟩ := by
    simp [applyStep]
  have hchunks : runSteps ⟨true, some "", fs0.slot⟩
      (chunks.map WriteStep.writeChunk) = ⟨true, some (joinStr chunks), fs0.slot⟩ := by
    rw [runSteps_writeChunks chunks true fs0.slot ""]
    simp
  have hfull : runSteps fs0 (createYamlSteps chunks) =
      { scratchDir := false, scratch := none, slot := some (joinStr chunks) } := by
    show runSteps fs0 (WriteStep.mkScratch :: _) = _
    rw [show runSteps fs0 (WriteStep.mkScratch ::
        (chunks.map WriteStep.writeChunk ++ [WriteStep.renameTmp, WriteStep.rmScratchDir])) =
        runSteps (applyStep fs0 WriteStep.mkScratch)
          (chunks.map WriteStep.writeChunk ++ [WriteStep.renameTmp, WriteStep.rmScratchDir])
      from rfl]
    rw [hmk, runSteps_append, hchunks]
    simp [runSteps, applyStep]
  refine ⟨?_, hfull⟩
  intro n
  match n with
  | 0 => left; simp [runSteps, createYamlSteps]
  | Nat.succ m =>
    rw [show (createYamlSteps chunks).take (m + 1) =
        WriteStep.mkScratch ::
          (chunks.map WriteStep.writeChunk ++
            [WriteStep.renameTmp, WriteStep.rmScratchDir]).take m
      from rfl]
    rw [show runSteps fs0 (WriteStep.mkScratch :: _) =
        runSteps (applyStep fs0 WriteStep.mkScratch)
          ((chunks.map WriteStep.writeChunk ++
            [WriteStep.renameTmp, WriteStep.rmScratchDir]).take m) from rfl]
    rw [hmk]
    by_cases h1 : m ≤ chunks.length
    · left
      rw [List.take_append_eq_append_take]
      have hm : m - (chunks.map WriteStep.writeChunk).length = 0 := by
        simp [Nat.sub_eq_zero_iff_le, h1]
      rw [hm]
      simp only [List.take_zero, List.append_nil]
      rw [← List.map_take, runSteps_writeChunks]
    · by_cases h2 : m = chunks.length + 1
      · right
        subst h2
        rw [List.take_append_eq_append_take]
        have hlen : (chunks.map WriteStep.writeChunk).length = chunks.length := by
          simp
        rw [List.take_of_length_le (by rw [hlen]; omega)]
        have hone : chunks.length + 1 - (chunks.map WriteStep.writeChunk).length = 1 := by
          rw [hlen]; omega
        rw [hone]
        rw [runSteps_append, hchunks]
        simp [runSteps, applyStep]
      · right
        have h3 : chunks.length + 2 ≤ m := by omega
        rw [List.take_of_length_le (by simp; omega)]
        rw [runSteps_append, hchunks]
        simp [runSteps, applyStep]

/-! ## The poller (bin/topology.py)

`poll_single_device` builds a `Poller` (which asks `snmp_manager.Validate`
for credentials) and calls `Poller.query`.  `query` skips the host with a
log message when `credentials()` was falsy, and otherwise runs
`_create_yaml`, which polls the device and writes the cache file.  The
external collaborators (credential validation, the SNMP walk, and the
filesystem) are abstracted by an environment assigning each hostname its
outcome.  There is no try/except anywhere on this path: an exception from
collection or from the cache write propagates out of the worker and is
re-raised by `pool.map` in the parent once the cycle's tasks drain
(modelled with one hostname per pool task). -/

/-- Outcome of one host's external interactions: falsy credentials, a
successful collection producing a serialized snapshot, or an exception
raised during collection or cache persistence. -/
inductive HostOutcome where
  | noCred : HostOutcome
  | collected : String → HostOutcome
  | raised : HostOutcome
deriving DecidableEq, Repr

/-- Observable effects of polling: cache files written (hostname,
content), log records emitted (message id, hostname), and whether an
exception escaped. -/
structure PollResult where
  writes : List (String × String)
  logs : List (Nat × String)
  raised : Bool
deriving DecidableEq, Repr

/-- topology.py lines 140-197 (`Poller.query` and `_create_yaml`) as driven
by `poll_single_device`: falsy credentials log message 1021 and return with
no write; success logs 1125 and 1019 and writes the snapshot; an exception
after the 1125 log escapes with no write. -/
def pollSingleDevice (env : String → HostOutcome) (hostname : String) : PollResult :=
  match env hostname with
  | .noCred => { writes := [], logs := [(1021, hostname)], raised := false }
  | .collected s =>
    { writes := [(hostname, s)], logs := [(1125, hostname), (1019, hostname)], raised := false }
  | .raised => { writes := [], logs := [(1125, hostname)], raised := true }

/-- topology.py lines 200-223, `poll_devices`: `pool.map(poll_single_device,
hostnames)` runs every hostname's task in a worker process (their writes and
logs all happen), and re-raises in the parent iff any task raised. -/
def pollDevices (env : String → HostOutcome) (hostnames : List String) : PollResult :=
  { writes := (hostnames.map fun h => (pollSingleDevice env h).writes).flatten
    logs := (hostnames.map fun h => (pollSingleDevice env h).logs).flatten
    raised := hostnames.any fun h => (pollSingleDevice env h).raised }

/-- topology.py lines 82-101, `PollingAgent.query`: `while True:
poll_devices(); sleep`.  Counts how many cycles start within `fuel`
iterations; an exception escaping `poll_devices` ends the loop. -/
def cyclesStarted (env : String → HostOutcome) (hostnames : List String) : Nat → Nat
  | 0 => 0
  | fuel + 1 =>
    1 + (if (pollDevices env hostnames).raised then 0 else cyclesStarted env hostnames fuel)

theorem pollDevices_writes_mem (env : String → HostOutcome)
    (hostnames : List String) (h s : String) :
    (h, s) ∈ (pollDevices env hostnames).writes ↔
      h ∈ hostnames ∧ env h = HostOutcome.collected s := by
  simp only [pollDevices, List.mem_flatten, List.mem_map]
  constructor
  · rintro ⟨l, ⟨h', hmem, rfl⟩, hin⟩
    cases henv : env h' with
    | noCred => simp [pollSingleDevice, henv] at hin
    | collected s' =>
      simp only [pollSingleDevice, henv, List.mem_singleton, Prod.mk.injEq] at hin
      obtain ⟨rfl, rfl⟩ := hin
      exact ⟨hmem, henv⟩
    | raised => simp [pollSingleDevice, henv] at hin
  · rintro ⟨hmem, henv⟩
    exact ⟨(pollSingleDevice env h).writes, ⟨h, hmem, rfl⟩,
      by simp [pollSingleDevice, henv]⟩

theorem pollDevices_raised_iff (env : String → HostOutcome)
    (hostnames : List String) :
    (pollDevices env hostnames).raised = true ↔
      ∃ h ∈ hostnames, env h = HostOutcome.raised := by
  simp only [pollDevices, List.any_eq_true]
  constructor
  · rintro ⟨h, hmem, hr⟩
    cases henv : env h with
    | noCred => simp [pollSingleDevice, henv] at hr
    | collected s => simp [pollSingleDevice, henv] at hr
    | raised => exact ⟨h, hmem, henv⟩
  · rintro ⟨h, hmem, henv⟩
    exact ⟨h, hmem, by simp [pollSingleDevice, henv]⟩

/-- An environment where one host's collection raises and another's
succeeds. -/
def envCollectFailure : String → HostOutcome := fun h =>
  if h = "switchA" then HostOutcome.raised else HostOutcome.collected "data"

/-- Claim C4, counterexample.  The claim says a collection or persistence
failure for one host is logged and swallowed at the per-host poller
boundary and never aborts the cycle.  In the code there is no handler on
that path: with one raising host, the exception escapes `poll_devices`
(the cycle's own completion), so the agent loop stops after the first
cycle instead of running the second. -/
theorem pollCycle_abort_counterexample :
    (pollDevices envCollectFailure ["switchA", "switchB"]).raised = true ∧
    cyclesStarted envCollectFailure ["switchA", "switchB"] 2 = 1 := by
  refine ⟨by decide, by decide⟩

/-- Claim C4, amended: only the no-credentials case is handled per host;
the writes of all hosts of the cycle still happen (each task runs in its
own worker), but an exception during collection or cache persistence
escapes `poll_devices` and ends the polling loop, so no further cycle
starts. -/
theorem pollDevices_error_propagation (env : String → HostOutcome)
    (hostnames : List String) :
    ((pollDevices env hostnames).raised = true ↔
      ∃ h ∈ hostnames, env h = HostOutcome.raised) ∧
    (∀ h s, h ∈ hostnames → env h = HostOutcome.collected s →
      (h, s) ∈ (pollDevices env hostnames).writes) ∧
    (∀ h, h ∈ hostnames → env h = HostOutcome.noCred →
      (1021, h) ∈ (pollDevices env hostnames).logs) ∧
    ((pollDevices env hostnames).raised = true →
      ∀ fuel, cyclesStarted env hostnames (fuel + 1) = 1) := by
  refine ⟨pollDevices_raised_iff env hostnames, ?_, ?_, ?_⟩
  · intro h s hmem henv
    exact (pollDevices_writes_mem env hostnames h s).mpr ⟨hmem, henv⟩
  · intro h hmem henv
    simp only [pollDevices, List.mem_flatten, List.mem_map]
    exact ⟨(pollSingleDevice env h).logs, ⟨h, hmem, rfl⟩,
      by simp [pollSingleDevice, henv]⟩
  · intro hraised fuel
    simp [cyclesStarted, hraised]

/-- Witness for the amended claim C4 at a concrete raising environment. -/
theorem pollDevices_error_propagation_witness :
    ("switchB", "data") ∈ (pollDevices envCollectFailure ["switchA", "switchB"]).writes ∧
    cyclesStarted envCollectFailure ["switchA", "switchB"] 4 = 1 := by
  refine ⟨?_, ?_⟩
  · exact (pollDevices_error_propagation envCollectFailure ["switchA", "switchB"]).2.1
      "switchB" "data" (by decide) (by decide)
  · exact (pollDevices_error_propagation envCollectFailure ["switchA", "switchB"]).2.2.2
      (by decide) 3

/-- Claim C5: a host whose credential resolution is empty is logged
(message id 1021) and its task ends with no cache write and no escaping
error, and every other host of the batch with a successful collection
still gets its snapshot written. -/
theorem pollSingle_noCred_skips (env : String → HostOutcome)
    (hostnames : List String) (h0 : String)
    (hcred : env h0 = HostOutcome.noCred) :
    (pollSingleDevice env h0).writes = [] ∧
    (pollSingleDevice env h0).raised = false ∧
    (1021, h0) ∈ (pollSingleDevice env h0).logs ∧
    (∀ s, (h0, s) ∉ (pollDevices env hostnames).writes) ∧
    (∀ h s, h ∈ hostnames → env h = HostOutcome.collected s →
      (h, s) ∈ (pollDevices env hostnames).writes) := by
  refine ⟨by simp [pollSingleDevice, hcred], by simp [pollSingleDevice, hcred],
    by simp [pollSingleDevice, hcred], ?_, ?_⟩
  · intro s hmem
    have := (pollDevices_writes_mem env hostnames h0 s).mp hmem
    rw [hcred] at this
    exact absurd this.2 (by simp)
  · intro h s hmem henv
    exact (pollDevices_writes_mem env hostnames h s).mpr ⟨hmem, henv⟩

/-- An environment where one host has no working credentials and the rest
collect successfully. -/
def envOneNoCred : String → HostOutcome := fun h =>
  if h = "alpha" then HostOutcome.noCred else HostOutcome.collected "snap"

/-- Witness for claim C5 at a concrete two-host batch. -/
theorem pollSingle_noCred_skips_witness :
    envOneNoCred "alpha" = HostOutcome.noCred ∧
    (pollSingleDevice envOneNoCred "alpha").writes = [] ∧
    ("beta", "snap") ∈ (pollDevices envOneNoCred ["alpha", "beta"]).writes := by
  refine ⟨by decide, ?_, ?_⟩
  · exact (pollSingle_noCred_skips envOneNoCred ["alpha", "beta"] "alpha" (by decide)).1
  · exact (pollSingle_noCred_skips envOneNoCred ["alpha", "beta"] "alpha" (by decide)).2.2.2.2
      "beta" "snap" (by decide) (by decide)

/-! ## The polling interval (bin/topology.py, `PollingAgent.query`) -/

/-- The `main:` section scalars of the configuration, as written by the
install.py template and read back by `configuration.Config`. -/
structure MainConfig where
  username : String
  agent_subprocesses : Nat
  bind_port : Nat
  polling_interval : Nat
  hostnames : List String
deriving DecidableEq, Repr

/-- topology.py lines 92-101: `PollingAgent.query` sets the local constant
`delay = 3600` and sleeps for `delay`; the configuration passed to the
agent is never consulted for the interval. -/
def agentQueryDelay : MainConfig → Nat := fun _ => 3600

/-- A configuration whose `polling_interval` is 60 seconds. -/
def cfgSixty : MainConfig :=
  { username := "switchmap"
    agent_subprocesses := 20
    bind_port := 7000
    polling_interval := 60
    hostnames := ["switch1"] }

/-- Claim C8: the code hard-codes the 3600-second sleep and ignores the
configured `polling_interval`, so with the interval configured to 60 the
agent still sleeps 3600 seconds. -/
theorem agentDelay_ignores_config :
    cfgSixty.polling_interval = 60 ∧
    agentQueryDelay cfgSixty = 3600 ∧
    agentQueryDelay cfgSixty ≠ cfgSixty.polling_interval := by
  refine ⟨rfl, rfl, by decide⟩

/-! ## Bounded concurrency of the pool (bin/topology.py, `poll_devices`)

`poll_devices` creates `Pool(processes=config.agent_threads())` and maps
`poll_single_device` over `config.hostnames()`.  The pool's execution is
modelled as a transition system: a worker may pick up the next pending
hostname only while fewer than `limit` tasks are running, and a running
task may finish.  `limit` is the pool's worker-process count and
`agent_threads()` is `agent_subprocesses` from the configuration. -/

/-- A pool execution state: hostnames not yet dispatched, tasks in flight,
and finished tasks. -/
structure PoolState where
  pending : List String
  running : List String
  done : List String
deriving DecidableEq, Repr

/-- One scheduling action of a pool with `limit` worker processes:
dispatch the next pending hostname into a free worker, or complete a
running task. -/
inductive PoolStep (limit : Nat) : PoolState → PoolState → Prop where
  | dispatch (h : String) (pending running done : List String) :
      running.length < limit →
      PoolStep limit ⟨h :: pending, running, done⟩ ⟨pending, h :: running, done⟩
  | finish (h : String) (pending running done : List String) :
      h ∈ running →
      PoolStep limit ⟨pending, running, done⟩ ⟨pending, running.erase h, h :: done⟩

/-- States reachable during one cycle of `pool.map` over the configured
hostnames. -/
def PoolReach (limit : Nat) (hostnames : List String) (s : PoolState) : Prop :=
  Relation.ReflTransGen (PoolStep limit) ⟨hostnames, [], []⟩ s

/-- Claim C9: across a full cycle, at every reachable instant the number
of in-flight tasks never exceeds the configured limit, while the cycle
dispatches exactly one task per configured hostname (every hostname is at
all times in exactly one of pending, running, or done). -/
theorem pool_bounded_concurrency (cfg : MainConfig) (s : PoolState)
    (hreach : PoolReach cfg.agent_subprocesses cfg.hostnames s) :
    s.running.length ≤ cfg.agent_subprocesses ∧
    List.Perm (s.pending ++ s.running ++ s.done) cfg.hostnames := by
  induction hreach with
  | refl => simp
  | tail hab hbc ih =>
    rcases hbc with ⟨h, pending, running, done, hlt⟩ | ⟨h, pending, running, done, hmem⟩
    · refine ⟨hlt, ?_⟩
      show List.Perm (pending ++ (h :: running) ++ done) cfg.hostnames
      have ih2 : List.Perm ((h :: pending) ++ running ++ done) cfg.hostnames := ih.2
      have h3 : List.Perm (pending ++ (h :: running) ++ done)
          ((h :: pending) ++ running ++ done) := by
        simp
      exact h3.trans ih2
    · have hlen : (running.erase h).length = running.length - 1 :=
        List.length_erase_of_mem hmem
      have hrunlen : running.length ≤ cfg.agent_subprocesses := ih.1
      refine ⟨?_, ?_⟩
      · show (running.erase h).length ≤ cfg.agent_subprocesses
        omega
      · show List.Perm (pending ++ running.erase h ++ (h :: done)) cfg.hostnames
        have ih2 : List.Perm (pending ++ running ++ done) cfg.hostnames := ih.2
        have hrun : List.Perm running (h :: running.erase h) :=
          List.perm_cons_erase hmem
        have h1 : List.Perm (running.erase h ++ (h :: done)) (running ++ done) :=
          (@List.perm_middle _ h (running.erase h) done).trans
            (hrun.append_right done).symm
        have h3 : List.Perm (pending ++ running.erase h ++ (h :: done))
            (pending ++ running ++ done) := by
          simpa using h1.append_left pending
        exact h3.trans ih2

/-- Witness for claim C9: the state after dispatching the single configured
hostname is reachable and satisfies the bound. -/
theorem pool_bounded_concurrency_witness :
    (⟨[], ["switch1"], []⟩ : PoolState).running.length ≤ cfgSixty.agent_subprocesses :=
  (pool_bounded_concurrency cfgSixty ⟨[], ["switch1"], []⟩
    (Relation.ReflTransGen.single
      (PoolStep.dispatch "switch1" [] [] [] (by decide)))).1

/-! ## The search route (switchmap/www/routes/pages/search.py)

The route handler `index` walks the POST form items; for the
`search_term` key it strips the value, runs `Search(search_term).find()`,
and folds the returned list of single-entry `{hostname: ifindex}` dicts
into the `devices` dict, appending to the per-hostname list.  `Search`
itself (switchmap/main/search.py) is not among the sources and is
modelled from the spec.  A cache is a list of (hostname, matcher) pairs,
the matcher giving the ordered ifindex matches of a term. -/

/-- search.py lines 49-52: insert one (hostname, ifindex) match into the
insertion-ordered `devices` dict — append to the list when the hostname is
present, else add a new entry. -/
def addEntry : List (String × List Nat) → String → Nat → List (String × List Nat)
  | [], hostname, ifindex => [(hostname, [ifindex])]
  | (k, l) :: rest, hostname, ifindex =>
    if k = hostname then (k, l ++ [ifindex]) :: rest
    else (k, l) :: addEntry rest hostname ifindex

/-- Dict lookup on insertion-ordered entries. -/
def lookupDev : List (String × List Nat) → String → Option (List Nat)
  | [], _ => none
  | (k, l) :: rest, hostname =>
    if k = hostname then some l else lookupDev rest hostname

/-- search.py lines 46-52: fold the search result into the `devices` dict. -/
def accumDevices (result : List (String × Nat)) : List (String × List Nat) :=
  result.foldl (fun devices p => addEntry devices p.1 p.2) []

/-- The ifindexes the underlying matches yield for hostname `h`, in order. -/
def valsFor (h : String) (result : List (String × Nat)) : List Nat :=
  (result.filter (fun p => p.1 == h)).map Prod.snd

/-- Modelled from the spec: `Search.find` (switchmap/main/search.py is not
among the sources).  Per the spec, an empty term "returns an empty result
with no scan performed"; otherwise every cache snapshot's `matches(term)`
list is flattened into single-entry (hostname, ifindex) results.  The
second component records whether the cache was scanned. -/
def searchFind (cache : List (String × (String → List Nat))) (term : String) :
    List (String × Nat) × Bool :=
  if term = "" then ([], false)
  else ((cache.map (fun p => (p.2 term).map (fun i => (p.1, i)))).flatten, true)

/-- Python's `str.strip()` with no argument: drop leading and trailing
whitespace.  Written over the character list so it evaluates by kernel
reduction. -/
def pyStrip (s : String) : String :=
  String.mk
    (((s.data.dropWhile Char.isWhitespace).reverse.dropWhile
      Char.isWhitespace).reverse)

/-- search.py lines 34-52, route handler `index`: walk the form items; for
each `search_term` key, strip the value, search, and accumulate into the
`devices` dict.  Returns the accumulated dict and whether any cache scan
happened. -/
def routeSearch (cache : List (String × (String → List Nat)))
    (items : List (String × String)) : List (String × List Nat) × Bool :=
  items.foldl
    (fun acc kv =>
      if kv.1 = "search_term" then
        let out := searchFind cache (pyStrip kv.2)
        (out.1.foldl (fun d p => addEntry d p.1 p.2) acc.1, acc.2 || out.2)
      else acc)
    ([], false)

/-- Claim C6: the search term is trimmed, and a term that is empty after
trimming yields an empty result mapping with no scan of the cache. -/
theorem routeSearch_empty_term (cache : List (String × (String → List Nat)))
    (v : String) (hv : pyStrip v = "") :
    searchFind cache (pyStrip v) = ([], false) ∧
    routeSearch cache [("search_term", v)] = ([], false) := by
  constructor
  · rw [hv]; simp [searchFind]
  · simp [routeSearch, hv, searchFind]

/-- A one-host cache whose matcher always reports ifindex 3. -/
def cacheOneHost : List (String × (String → List Nat)) :=
  [("switch1", fun _ => [3])]

/-- Witness for claim C6 at a whitespace-only form value. -/
theorem routeSearch_empty_term_witness :
    pyStrip "   " = "" ∧
    routeSearch cacheOneHost [("search_term", "   ")] = ([], false) := by
  refine ⟨by decide, (routeSearch_empty_term cacheOneHost "   " (by decide)).2⟩

/-- Claim C7, counterexample.  The claim says duplicate ifindexes for one
host are coalesced while preserving first-seen order.  The accumulation in
search.py lines 46-52 appends unconditionally, so two identical matches
for one host leave a duplicated entry in that host's list. -/
theorem accumDevices_dup_counterexample :
    accumDevices [("switch1", 7), ("switch1", 7)] = [("switch1", [7, 7])] ∧
    ¬ ([7, 7] : List Nat).Nodup := by
  refine ⟨by decide, by decide⟩

theorem lookupDev_addEntry (devices : List (String × List Nat))
    (k : String) (v : Nat) (h : String) :
    lookupDev (addEntry devices k v) h =
      if k = h then some ((lookupDev devices k).getD [] ++ [v])
      else lookupDev devices h := by
  induction devices with
  | nil =>
    by_cases hk : k = h
    · simp [addEntry, lookupDev, hk]
    · simp [addEntry, lookupDev, hk]
  | cons e rest ih =>
    obtain ⟨k₀, l₀⟩ := e
    by_cases h₀ : k₀ = k
    · subst h₀
      by_cases hk : k₀ = h
      · simp [addEntry, lookupDev, hk]
      · simp [addEntry, lookupDev, hk]
    · by_cases hh : k₀ = h
      · subst hh
        have hne : ¬ (k = k₀) := fun hc => h₀ hc.symm
        simp [addEntry, lookupDev, h₀, hne]
      · simp [addEntry, lookupDev, h₀, hh, ih]

theorem valsFor_cons (h k : String) (v : Nat) (rs : List (String × Nat)) :
    valsFor h ((k, v) :: rs) =
      if k = h then v :: valsFor h rs else valsFor h rs := by
  by_cases hk : k = h
  · simp [valsFor, List.filter_cons, hk]
  · simp [valsFor, List.filter_cons, hk]

theorem lookupDev_foldl_addEntry (result : List (String × Nat)) :
    ∀ (devices : List (String × List Nat)) (h : String),
      lookupDev (result.foldl (fun d p => addEntry d p.1 p.2) devices) h =
        if lookupDev devices h = none ∧ valsFor h result = [] then none
        else some ((lookupDev devices h).getD [] ++ valsFor h result) := by
  induction result with
  | nil =>
    intro devices h
    cases hl : lookupDev devices h <;> simp [valsFor, hl]
  | cons p rs ih =>
    intro devices h
    obtain ⟨k, v⟩ := p
    rw [List.foldl_cons]
    rw [ih (addEntry devices k v) h]
    rw [lookupDev_addEntry, valsFor_cons]
    by_cases hk : k = h
    · subst hk
      cases hl : lookupDev devices k <;> simp [hl]
    · rw [if_neg hk, if_neg hk]


/-- Claim C7, amended: the per-hostname list accumulated by the route is
the in-order concatenation of every ifindex the underlying matches yield
for that host; duplicates are retained, not coalesced. -/
theorem accumDevices_concat (result : List (String × Nat)) (h : String) :
    lookupDev (accumDevices result) h =
      if valsFor h result = [] then none else some (valsFor h result) := by
  rw [accumDevices, lookupDev_foldl_addEntry result [] h]
  simp [lookupDev]

end Switchmap
